import Mathlib

/-!
# Verification of the URL / QR-code pipeline

Shallow embedding of the core of the `qr-code-generator` repository:

* `src/url_processor.py` — `URLProcessor.normalize_url` / `deduplicate_urls`,
  including a faithful model of the parts of CPython's `urllib.parse`
  (`urlparse` / `urlunparse`) that these functions call;
* `src/url_manager.py` — `URLManager` (`add_url`, `_hash_url`,
  `mark_as_processed`, `export_to_csv`);
* `src/qr_generator.py` — `QRGenerator.generate`;
* `src/generate-qr-code.py` — `generate_qr_code`;
* `src/link_extractor_qr_generator.py` — `QRCodeGenerator._save_binary_data`;
* `src/pdf_generator.py` — `PDFGenerator.generate` (quadrant layout);
* `src/main.py` — the QR/CSV loop of `LinkExtractorQRGenerator.process_file`;
* `src/csv_manager.py` — `CSVManager.add_entry`.

Python strings are modelled as `List Char` (the URLs and module data handled by
the program are ASCII); machine-level details that the claims do not touch
(PNG byte streams, the filesystem) are modelled as the values the code writes.
-/

namespace QRRepo

/-! ## ASCII character utilities

`str.lower()` of CPython, restricted to ASCII, which is the only alphabet the
modelled URL components use.  The table-based definition keeps the development
free of code-point arithmetic. -/

def isAsciiUpper (c : Char) : Bool := 'A' ≤ c && c ≤ 'Z'

def isAsciiLower (c : Char) : Bool := 'a' ≤ c && c ≤ 'z'

def isAsciiAlpha (c : Char) : Bool := isAsciiUpper c || isAsciiLower c

def upperLowerPairs : List (Char × Char) :=
  [('A', 'a'), ('B', 'b'), ('C', 'c'), ('D', 'd'), ('E', 'e'), ('F', 'f'),
   ('G', 'g'), ('H', 'h'), ('I', 'i'), ('J', 'j'), ('K', 'k'), ('L', 'l'),
   ('M', 'm'), ('N', 'n'), ('O', 'o'), ('P', 'p'), ('Q', 'q'), ('R', 'r'),
   ('S', 's'), ('T', 't'), ('U', 'u'), ('V', 'v'), ('W', 'w'), ('X', 'x'),
   ('Y', 'y'), ('Z', 'z')]

/-- ASCII lower-casing of one character (Python `str.lower()` on ASCII). -/
def lowerChar (c : Char) : Char := (upperLowerPairs.lookup c).getD c

/-- ASCII lower-casing of a string (Python `str.lower()` on ASCII). -/
def lower (l : List Char) : List Char := l.map lowerChar

/-! ## List-splitting primitives

These model the index-based string splitting that CPython's `urllib.parse`
performs (`str.find` / slicing / `str.split(sep, 1)`). -/

/-- Split a list at the first occurrence of `c`, dropping that occurrence
(`s.split(c, 1)` when `c` occurs; `none` when it does not). -/
def splitFirst (c : Char) : List Char → Option (List Char × List Char)
  | [] => none
  | x :: xs =>
    if x = c then some ([], xs)
    else (splitFirst c xs).map fun p => (x :: p.1, p.2)

/-! ## Model of `urllib.parse.urlparse` / `urlunparse`

Faithful to CPython's `urlsplit`/`urlparse` on the inputs this program feeds
them: scheme recognition at the first `:` (requiring a leading ASCII letter and
scheme characters), `//`-introduced netloc ending at the first `/`, `?` or `#`,
the bracket-mismatch `ValueError` (the only exception `urlparse` can raise
here, modelled with `Except`), fragment split at the first `#`, query split at
the first `?`, and the params split on the last path segment. -/

def schemeChar (c : Char) : Bool :=
  isAsciiAlpha c || c.isDigit || c == '+' || c == '-' || c == '.'

/-- CPython `urlsplit` scheme recognition: `i = url.find(':')`; a scheme is
present when `i > 0`, `url[0]` is an ASCII letter and every char before `:` is
a scheme char; the scheme is returned lower-cased. -/
def splitScheme (l : List Char) : List Char × List Char :=
  match splitFirst ':' l with
  | none => ([], l)
  | some (pre, post) =>
    if !pre.isEmpty && isAsciiAlpha (pre.headD ' ') && pre.all schemeChar then
      (lower pre, post)
    else ([], l)

def netlocEnd (c : Char) : Bool := c == '/' || c == '?' || c == '#'

/-- CPython `_splitnetloc`: when the rest starts with `//`, the netloc runs to
the first `/`, `?` or `#`. -/
def splitNetloc (l : List Char) : List Char × List Char :=
  match l with
  | '/' :: '/' :: rest =>
    (rest.takeWhile (fun c => !netlocEnd c), rest.dropWhile (fun c => !netlocEnd c))
  | _ => ([], l)

/-- CPython `urlsplit` raises `ValueError` when exactly one of `[`, `]` occurs
in the netloc. -/
def netlocOk (n : List Char) : Bool := n.contains '[' == n.contains ']'

structure SplitResult where
  scheme : List Char
  netloc : List Char
  path : List Char
  query : List Char
  fragment : List Char
deriving DecidableEq

/-- CPython `urlsplit` (result order inside: scheme, netloc, then fragment at
the first `#`, then query at the first `?`). -/
def urlsplitE (l : List Char) : Except Unit SplitResult :=
  let s := splitScheme l
  let n := splitNetloc s.2
  if netlocOk n.1 then
    let pf :=
      match splitFirst '#' n.2 with
      | some p => p
      | none => (n.2, [])
    let pq :=
      match splitFirst '?' pf.1 with
      | some p => p
      | none => (pf.1, [])
    .ok ⟨s.1, n.1, pq.1, pq.2, pf.2⟩
  else
    .error ()

/-- The suffix of `l` starting at its last `/` (inclusive); `[]` when there is
no `/`. -/
def afterLastSlash : List Char → List Char
  | [] => []
  | c :: cs =>
    if cs.contains '/' then afterLastSlash cs
    else if c = '/' then c :: cs
    else []

/-- CPython `_splitparams`: split the params at the first `;` of the last path
segment (searching from the last `/` when one exists). -/
def splitParams (l : List Char) : List Char × List Char :=
  if l.contains '/' then
    let suf := afterLastSlash l
    let pre := l.take (l.length - suf.length)
    match splitFirst ';' suf with
    | some p => (pre ++ p.1, p.2)
    | none => (l, [])
  else
    match splitFirst ';' l with
    | some p => (p.1, p.2)
    | none => (l, [])

structure ParseResult where
  scheme : List Char
  netloc : List Char
  path : List Char
  params : List Char
  query : List Char
  fragment : List Char
deriving DecidableEq

/-- CPython `urlparse`: `urlsplit` plus the params split. -/
def urlparseE (l : List Char) : Except Unit ParseResult :=
  match urlsplitE l with
  | .error e => .error e
  | .ok r =>
    let pp := splitParams r.path
    .ok ⟨r.scheme, r.netloc, pp.1, pp.2, r.query, r.fragment⟩

/-- CPython `urlunsplit`. -/
def urlunsplit (scheme netloc path query fragment : List Char) : List Char :=
  let u₁ :=
    if netloc ≠ [] ∨ path.take 2 = ['/', '/'] then
      '/' :: '/' :: (netloc ++ (if path ≠ [] ∧ path.take 1 ≠ ['/'] then '/' :: path else path))
    else path
  let u₂ := if scheme ≠ [] then scheme ++ ':' :: u₁ else u₁
  let u₃ := if query ≠ [] then u₂ ++ '?' :: query else u₂
  if fragment ≠ [] then u₃ ++ '#' :: fragment else u₃

/-- CPython `urlunparse`: params are re-attached with `;` when non-empty. -/
def urlunparse (r : ParseResult) : List Char :=
  urlunsplit r.scheme r.netloc
    (if r.params ≠ [] then r.path ++ ';' :: r.params else r.path)
    r.query r.fragment

/-! ## `URLProcessor.normalize_url` (src/url_processor.py) -/

/-- `netloc.startswith('www.')` / `netloc[4:]`. -/
def stripWww (n : List Char) : List Char :=
  if n.take 4 = ['w', 'w', 'w', '.'] then n.drop 4 else n

/-- `URLProcessor.normalize_url`: lower-case the scheme, lower-case the netloc
and strip a leading `www.`, reassemble with the fragment dropped; any parse
exception returns the input unchanged. -/
def normalize_url (l : List Char) : List Char :=
  match urlparseE l with
  | .error _ => l
  | .ok r => urlunparse ⟨lower r.scheme, stripWww (lower r.netloc), r.path, r.params, r.query, []⟩

/-- `URLProcessor.normalize_url` at `String` level. -/
def normalizeUrl (s : String) : String := ⟨normalize_url s.data⟩

/-! ## The URL grammar of the spec (§4.1) and the normalization contract (§4.2)

`WfUrl` is the shallow form of the spec's URL grammar
`scheme://authority+path+query+fragment`: an all-letter scheme, a non-empty
host free of `/?#[]` (ports allowed), a path that is empty or `/`-rooted and
free of `?#;`, an optional non-empty query free of `#`, and an optional
fragment.  The host is also required to keep a non-empty name after the
`www.`-strip, as any registrable authority does. -/

def hostChar (c : Char) : Bool := !netlocEnd c && !(c == '[') && !(c == ']')

def pathChar (c : Char) : Bool := !(c == '?') && !(c == '#') && !(c == ';')

def queryOkB : Option (List Char) → Bool
  | none => true
  | some q => !q.isEmpty && q.all fun c => !(c == '#')

structure WfUrl where
  scheme : List Char
  host : List Char
  path : List Char
  query : Option (List Char)
  fragment : Option (List Char)
deriving DecidableEq

def WfUrl.wf (u : WfUrl) : Bool :=
  !u.scheme.isEmpty && u.scheme.all isAsciiAlpha &&
  !u.host.isEmpty && u.host.all hostChar &&
  !(stripWww (lower u.host)).isEmpty &&
  (u.path.isEmpty || u.path.take 1 == ['/']) && u.path.all pathChar &&
  queryOkB u.query

/-- The rendered query part (`?q` when present). -/
def qpart : Option (List Char) → List Char
  | some q => '?' :: q
  | none => []

/-- The rendered fragment part (`#f` when present). -/
def fpart : Option (List Char) → List Char
  | some f => '#' :: f
  | none => []

/-- The literal text of a grammar URL. -/
def WfUrl.render (u : WfUrl) : List Char :=
  u.scheme ++ ':' :: '/' :: '/' :: u.host ++ u.path ++ qpart u.query ++ fpart u.fragment

/-- The normal form prescribed by the spec's §4.2 wording: lower-case the
scheme; lower-case the host and strip a leading `www.` label; leave path and
query untouched; drop the fragment entirely. -/
def WfUrl.specNormal (u : WfUrl) : WfUrl :=
  { scheme := lower u.scheme
    host := stripWww (lower u.host)
    path := u.path
    query := u.query
    fragment := none }

/-! ## `URLManager` (src/url_manager.py)

State of the registry.  The Python `dict` preserves insertion order, modelled
as an association list; the `set` of hashes keeps membership only.
`uuid.uuid4()` draws a fresh identifier, modelled as the next value of a
counter (the claims use only equality and freshness of ids);
`datetime.datetime.now()` is passed in as the `now` argument. -/

structure Metadata where
  url : String
  id : Nat
  domain : String
  path : String
  query : String
  timestamp : Option String
  version : Option Nat
  qr_data : Option String
  processed : Bool
deriving DecidableEq

structure UMState where
  urls : List (String × Metadata)
  url_hashes : List String
  nextId : Nat
deriving DecidableEq

def initialUM : UMState := ⟨[], [], 0⟩

/-- `URLManager._hash_url`: "This is a simple hash" — it returns the URL
itself. -/
def hash_url (url : String) : String := url

/-- The `urlparse(url)` components stored by `add_url` (`netloc`, `path`,
`query`).  On a malformed-bracket netloc CPython would raise out of `add_url`;
no claim exercises that path, and the fallback is never used under the
grammar. -/
def urlComponents (url : String) : String × String × String :=
  match urlparseE url.data with
  | .ok r => (⟨r.netloc⟩, ⟨r.path⟩, ⟨r.query⟩)
  | .error _ => ("", "", "")

def mkMetadata (url : String) (id : Nat) : Metadata :=
  let p := urlComponents url
  ⟨url, id, p.1, p.2.1, p.2.2, none, none, none, false⟩

/-- `URLManager.add_url`: hash (= the literal URL) already registered returns
the stored record unchanged; otherwise a fresh record is appended.  The
`getD` models `self.urls[url]`, total under the registry invariant. -/
def add_url (s : UMState) (url : String) : Metadata × UMState :=
  if hash_url url ∈ s.url_hashes then
    ((s.urls.lookup url).getD (mkMetadata url s.nextId), s)
  else
    let m := mkMetadata url s.nextId
    (m, ⟨s.urls ++ [(url, m)], hash_url url :: s.url_hashes, s.nextId + 1⟩)

/-- The four field assignments of `mark_as_processed`. -/
def processedUpdate (version : Nat) (qr_data now : String) (m : Metadata) : Metadata :=
  { m with
    processed := true
    timestamp := some now
    version := some version
    qr_data := some qr_data }

/-- `URLManager.mark_as_processed`: when the URL key exists, set
`processed`/`timestamp`/`version`/`qr_data` unconditionally; otherwise do
nothing. -/
def mark_as_processed (s : UMState) (url : String) (version : Nat) (qr_data : String)
    (now : String) : UMState :=
  if (s.urls.lookup url).isSome then
    { s with
      urls := s.urls.map fun kv =>
        if kv.1 = url then (kv.1, processedUpdate version qr_data now kv.2) else kv }
  else s

def optStr : Option String → String
  | some s => s
  | none => ""

def optNatStr : Option Nat → String
  | some n => toString n
  | none => ""

/-- `URLManager.export_to_csv`: the rows written to `urls.csv` — the header,
then one row per registry entry in insertion order (Python's csv writer
renders `None` as an empty field). -/
def export_to_csv (s : UMState) : List (List String) :=
  ["url", "timestamp", "version", "binary_data"] ::
    s.urls.map fun kv => [kv.1, optStr kv.2.timestamp, optNatStr kv.2.version, optStr kv.2.qr_data]

/-- Registry invariant maintained by `URLManager`: distinct dict keys, and the
hash set holds exactly the keys (since `_hash_url` is the identity). -/
def UMInv (s : UMState) : Prop :=
  (s.urls.map Prod.fst).Nodup ∧
  (∀ u ∈ s.url_hashes, u ∈ s.urls.map Prod.fst) ∧
  (∀ u ∈ s.urls.map Prod.fst, u ∈ s.url_hashes)

instance (s : UMState) : Decidable (UMInv s) := by
  unfold UMInv
  infer_instance

/-! ## QR encoder (src/qr_generator.py, src/generate-qr-code.py)

The `qrcode` third-party library is not part of the repository.  Modelled from
the spec (§4.4): version auto-selection is "a well-defined lookup against the
standard QR capacity table" (byte mode, the mode used for URL payloads), the
matrix is a deterministic function of payload and configuration ("identical
inputs always produce an identical bit matrix"), and `qr.get_matrix()` returns
the module grid including the light `border`-module quiet zone.  The module
pattern itself (Reed–Solomon, masking) is beyond the spec's wording; the
development is parametric in it (`ModuleFn`), covering every deterministic
implementation. -/

inductive ECLevel
  | L
  | M
  | Q
  | H
deriving DecidableEq

/-- Modelled from the spec: the standard QR byte-mode character capacity
table; entry `v - 1` of the list is the capacity of version `v` at the given
error-correction level. -/
def byteCapacities : ECLevel → List Nat
  | .L => [17, 32, 53, 78, 106, 134, 154, 192, 230, 271, 321, 367, 425, 458,
      520, 586, 644, 718, 792, 858, 929, 1003, 1091, 1171, 1273, 1367, 1465,
      1528, 1628, 1732, 1840, 1952, 2068, 2188, 2303, 2431, 2563, 2699, 2809, 2953]
  | .M => [14, 26, 42, 62, 84, 106, 122, 152, 180, 213, 251, 287, 331, 362,
      412, 450, 504, 560, 624, 666, 711, 779, 857, 911, 997, 1059, 1125, 1190,
      1264, 1370, 1452, 1538, 1628, 1722, 1809, 1911, 1989, 2099, 2213, 2331]
  | .Q => [11, 20, 32, 46, 60, 74, 86, 108, 130, 151, 177, 203, 241, 258, 292,
      322, 364, 394, 442, 482, 509, 565, 611, 661, 715, 751, 805, 868, 908,
      982, 1030, 1112, 1168, 1228, 1283, 1351, 1423, 1499, 1579, 1663]
  | .H => [7, 14, 24, 34, 44, 58, 64, 84, 98, 119, 137, 155, 177, 194, 220,
      250, 280, 310, 338, 382, 403, 439, 461, 511, 535, 593, 625, 658, 698,
      742, 790, 842, 898, 958, 983, 1051, 1093, 1139, 1219, 1273]

def byteCapacity (lvl : ECLevel) (v : Nat) : Nat := (byteCapacities lvl).getD (v - 1) 0

/-- Modelled from the spec: `qr.make(fit=True)` with `version=None` walks the
versions upward and picks the first that fits (fuel-structured for kernel
computability; `fitVersion` starts at version 1 with fuel 40). -/
def fitVersionFuel (lvl : ECLevel) (len : Nat) : Nat → Nat → Option Nat
  | _, 0 => none
  | v, fuel + 1 =>
    if 40 < v then none
    else if len ≤ byteCapacity lvl v then some v
    else fitVersionFuel lvl len (v + 1) fuel

def fitVersion (lvl : ECLevel) (len : Nat) : Option Nat := fitVersionFuel lvl len 1 40

/-- An arbitrary deterministic module pattern: level, payload, version, row,
column (quiet zone excluded) to darkness. -/
def ModuleFn : Type := ECLevel → List Char → Nat → Nat → Nat → Bool

/-- A concrete module pattern used to instantiate witnesses. -/
def constModule : ModuleFn := fun _ _ _ _ _ => false

/-- `qr.get_matrix()`: the `(4v + 17 + 2·border)`-sided module grid, quiet
zone light. -/
def qrMatrixRows (f : ModuleFn) (lvl : ECLevel) (payload : List Char) (v border : Nat) :
    List (List Bool) :=
  (List.range (4 * v + 17 + 2 * border)).map fun r =>
    (List.range (4 * v + 17 + 2 * border)).map fun c =>
      if border ≤ r ∧ r < border + (4 * v + 17) ∧ border ≤ c ∧ c < border + (4 * v + 17) then
        f lvl payload v (r - border) (c - border)
      else false

def bitChar (b : Bool) : Char := if b then '1' else '0'

/-- The `for row in data: for cell in row: binary_data += "1"/"0"` loop of
`QRGenerator.generate`, `generate_qr_code` and `_save_binary_data`. -/
def flattenBinary (m : List (List Bool)) : List Char :=
  m.foldl (fun acc row => row.foldl (fun a cell => a ++ [bitChar cell]) acc) []

/-- Row-major `"0"/"1"` serialization as the spec words it ("a flattened
binary string of `"0"`/`"1"` characters in row-major order"). -/
def rowMajorBits (m : List (List Bool)) : List Char :=
  (m.map fun row => row.map bitChar).flatten

/-- The rendered image: the matrix with `box_size`-px modules (PNG bytes are
out of scope; the image is identified by its content). -/
structure QRImage where
  matrix : List (List Bool)
  box_size : Nat
deriving DecidableEq

structure QRConfig where
  error_correction : ECLevel
  box_size : Nat
  border : Nat
deriving DecidableEq

/-- Defaults of `qr_generator.py` (and `config_manager.py`):
`ERROR_CORRECT_L`, box size 10, border 4. -/
def defaultConfig : QRConfig := ⟨.L, 10, 4⟩

/-- `QRGenerator.generate` (src/qr_generator.py): fit the version, render the
image, flatten the matrix.  A `DataOverflowError` raised by
`qr.make(fit=True)` propagates — the method has no handler — modelled as
`Except.error`. -/
def QRGenerator.generate (f : ModuleFn) (cfg : QRConfig) (url : List Char) :
    Except Unit (QRImage × List Char) :=
  match fitVersion cfg.error_correction url.length with
  | none => .error ()
  | some v =>
    let m := qrMatrixRows f cfg.error_correction url v cfg.border
    .ok (⟨m, cfg.box_size⟩, flattenBinary m)

/-- The header `Link: <url>\nVersion: <n>\n` of the binary sidecar. -/
def headerBytes (url : List Char) (version : Nat) : List Char :=
  "Link: ".data ++ url ++ "\nVersion: ".data ++ (toString version).data ++ ['\n']

/-- `QRCodeGenerator._save_binary_data` (src/link_extractor_qr_generator.py):
the bytes written to the `.bin` sidecar — the UTF-8 header followed directly
by the flattened matrix (the strings are ASCII, so byte content is character
content). -/
def save_binary_data (m : List (List Bool)) (url : List Char) (version : Nat) : List Char :=
  headerBytes url version ++ flattenBinary m

/-- Result of `generate_qr_code` (src/generate-qr-code.py): contents of the
files it writes, and whether the `except Exception` branch printed an error.
The function always returns normally — its body is one big `try/except`. -/
structure GQRResult where
  image_file : Option QRImage
  data_file : Option (List Char)
  error_printed : Bool
deriving DecidableEq

/-- `generate_qr_code` (src/generate-qr-code.py): hard-coded level L, box 10,
border 4; on any exception (including `DataOverflowError` for oversized
payloads) it prints "An error occurred" and returns with no files written. -/
def generate_qr_code (f : ModuleFn) (link : List Char) : GQRResult :=
  match fitVersion .L link.length with
  | some v =>
    let m := qrMatrixRows f .L link v 4
    ⟨some ⟨m, 10⟩, some (save_binary_data m link v), false⟩
  | none => ⟨none, none, true⟩

/-! ## CSV entries and the `process_file` loop (src/main.py, src/csv_manager.py) -/

structure CsvEntry where
  url : List Char
  qr_version : Nat
  binary_data : List Char
  image : QRImage
deriving DecidableEq

/-- `CSVManager.add_entry`: the row appended to the master CSV (the image is
stored base64-encoded; content is identified by the image value). -/
def add_entry (url : List Char) (qr_version : Nat) (binary_data : List Char)
    (img : QRImage) : CsvEntry :=
  ⟨url, qr_version, binary_data, img⟩

/-- The QR/CSV loop of `LinkExtractorQRGenerator.process_file` (src/main.py):
`qr_image, binary_data = self.qr_generator.generate(url)` then
`self.csv_manager.add_entry(url, 1, binary_data, qr_image)` — the version
column receives the literal `1`. -/
def process_new_urls (f : ModuleFn) (cfg : QRConfig) (urls : List (List Char)) :
    Except Unit (List CsvEntry) :=
  urls.mapM fun u =>
    match QRGenerator.generate f cfg u with
    | .error e => .error e
    | .ok r => .ok (add_entry u 1 r.2 r.1)

/-! ## `PDFGenerator.generate` — quadrant layout (src/pdf_generator.py)

The geometry is exact in binary floating point (all quantities are multiples
of 1/4 mm), so `ℚ` models the Python floats faithfully. -/

/-- A CSV row as the PDF generator reads it: only
`entry.get('image_data', '')` is consulted; empty means missing. -/
structure PdfEntry where
  image_data : String
deriving DecidableEq

structure Placement where
  entry_idx : Nat
  x : ℚ
  y : ℚ
deriving DecidableEq

def page_width : ℚ := 210

def page_height : ℚ := 297

def quadrant_width : ℚ := page_width / 2

def quadrant_height : ℚ := page_height / 2

/-- The `quadrant_centers` list of the code: top-left, top-right, bottom-left,
bottom-right (`1.5 = 3/2`). -/
def quadrant_centers : List (ℚ × ℚ) :=
  [(quadrant_width / 2, quadrant_height / 2),
   (quadrant_width * (3 / 2), quadrant_height / 2),
   (quadrant_width / 2, quadrant_height * (3 / 2)),
   (quadrant_width * (3 / 2), quadrant_height * (3 / 2))]

def qr_size : ℚ := 70

/-- One quadrant of the loop body of `PDFGenerator.generate`: entry index out
of range (`entry_idx >= total_qr_codes`) or empty `image_data` draw nothing;
otherwise a 70 mm square image is drawn at the quadrant center minus half its
size. -/
def pdf_cell (entries : List PdfEntry) (entry_idx quadrant_idx : Nat) : Option Placement :=
  match entries[entry_idx]? with
  | none => none
  | some e =>
    if e.image_data = "" then none
    else
      some ⟨entry_idx, (quadrant_centers.getD quadrant_idx (0, 0)).1 - qr_size / 2,
        (quadrant_centers.getD quadrant_idx (0, 0)).2 - qr_size / 2⟩

/-- `PDFGenerator.generate`: `math.ceil(n / 4)` pages are always added (exact
in `Nat` as `(n + 3) / 4`); on each page the four quadrants process entry
`page_idx * 4 + quadrant_idx`.  The result is the per-page list of drawn
placements. -/
def pdf_layout (entries : List PdfEntry) : List (List Placement) :=
  (List.range ((entries.length + 3) / 4)).map fun page_idx =>
    (List.range 4).filterMap fun quadrant_idx =>
      pdf_cell entries (page_idx * 4 + quadrant_idx) quadrant_idx

/-! ## Supporting lemmas -/

theorem lookup_mem {α β : Type} [BEq α] [LawfulBEq α] {l : List (α × β)} {a : α} {b : β}
    (h : l.lookup a = some b) : (a, b) ∈ l := by
  induction l with
  | nil => simp [List.lookup] at h
  | cons p t ih =>
    obtain ⟨k, v⟩ := p
    by_cases hk : a == k
    · simp [List.lookup, hk] at h
      subst h
      simp at hk
      subst hk
      exact List.mem_cons_self _ _
    · simp only [List.lookup, hk, cond_false] at h
      exact List.mem_cons_of_mem _ (ih h)

theorem lowerChar_idem (c : Char) : lowerChar (lowerChar c) = lowerChar c := by
  unfold lowerChar
  cases h : upperLowerPairs.lookup c with
  | none => simp [h]
  | some d =>
    have hd : (c, d) ∈ upperLowerPairs := lookup_mem h
    have hnone : ∀ p ∈ upperLowerPairs, upperLowerPairs.lookup p.2 = none := by decide
    simp [h, hnone (c, d) hd]

theorem lower_idem (l : List Char) : lower (lower l) = lower l := by
  unfold lower
  rw [List.map_map]
  exact List.map_congr_left fun c _ => lowerChar_idem c

theorem splitFirst_of_not_mem {c : Char} {l : List Char} (h : c ∉ l) :
    splitFirst c l = none := by
  induction l with
  | nil => rfl
  | cons x xs ih =>
    have hx : x ≠ c := fun hxc => h (hxc ▸ List.mem_cons_self x xs)
    have hxs : c ∉ xs := fun hm => h (List.mem_cons_of_mem _ hm)
    simp [splitFirst, hx, ih hxs]

theorem splitFirst_append {c : Char} {l₁ l₂ : List Char} (h : c ∉ l₁) :
    splitFirst c (l₁ ++ c :: l₂) = some (l₁, l₂) := by
  induction l₁ with
  | nil => simp [splitFirst]
  | cons x xs ih =>
    have hx : x ≠ c := fun hxc => h (hxc ▸ List.mem_cons_self x xs)
    have hxs : c ∉ xs := fun hm => h (List.mem_cons_of_mem _ hm)
    simp [splitFirst, hx, ih hxs]

theorem takeWhile_append_of_all {p : Char → Bool} {l₁ l₂ : List Char}
    (h : ∀ a ∈ l₁, p a = true) :
    (l₁ ++ l₂).takeWhile p = l₁ ++ l₂.takeWhile p := by
  induction l₁ with
  | nil => rfl
  | cons x xs ih =>
    have hx : p x = true := h x (List.mem_cons_self x xs)
    simp [List.takeWhile_cons, hx]
    exact ih fun a ha => h a (List.mem_cons_of_mem _ ha)

theorem dropWhile_append_of_all {p : Char → Bool} {l₁ l₂ : List Char}
    (h : ∀ a ∈ l₁, p a = true) :
    (l₁ ++ l₂).dropWhile p = l₂.dropWhile p := by
  induction l₁ with
  | nil => rfl
  | cons x xs ih =>
    have hx : p x = true := h x (List.mem_cons_self x xs)
    simp [List.dropWhile_cons, hx]
    exact ih fun a ha => h a (List.mem_cons_of_mem _ ha)

theorem takeWhile_cons_of_neg {p : Char → Bool} {c : Char} {l : List Char}
    (h : p c = false) : (c :: l).takeWhile p = [] := by
  simp [List.takeWhile_cons, h]

theorem dropWhile_cons_of_neg {p : Char → Bool} {c : Char} {l : List Char}
    (h : p c = false) : (c :: l).dropWhile p = c :: l := by
  simp [List.dropWhile_cons, h]

theorem contains_eq_false_of_not_mem {c : Char} {l : List Char} (h : c ∉ l) :
    l.contains c = false := by
  induction l with
  | nil => rfl
  | cons x xs ih =>
    have hx : ¬c = x := fun e => h (e ▸ List.mem_cons_self x xs)
    have hxs : c ∉ xs := fun m => h (List.mem_cons_of_mem _ m)
    simp [List.contains_cons, ih hxs, hx, hxs]

theorem mem_afterLastSlash {a : Char} {l : List Char} (h : a ∈ afterLastSlash l) :
    a ∈ l := by
  induction l with
  | nil => simp [afterLastSlash] at h
  | cons c cs ih =>
    unfold afterLastSlash at h
    by_cases h1 : cs.contains '/'
    · simp only [h1, if_true] at h
      exact List.mem_cons_of_mem _ (ih h)
    · simp only [h1, if_false] at h
      by_cases h2 : c = '/'
      · simpa [h2] using h
      · simp [h2] at h

theorem splitParams_of_not_mem {l : List Char} (h : ';' ∉ l) :
    splitParams l = (l, []) := by
  unfold splitParams
  by_cases hs : '/' ∈ l
  · have hsuf : ';' ∉ afterLastSlash l := fun m => h (mem_afterLastSlash m)
    simp [hs, splitFirst_of_not_mem hsuf]
  · simp [hs, splitFirst_of_not_mem h]

theorem splitScheme_append {s rest : List Char} (h1 : s ≠ [])
    (h2 : s.all isAsciiAlpha = true) : splitScheme (s ++ ':' :: rest) = (lower s, rest) := by
  have halpha : ∀ c ∈ s, isAsciiAlpha c = true := by
    simpa [List.all_eq_true] using h2
  have hcolon : ':' ∉ s := fun m => absurd (halpha ':' m) (by decide)
  unfold splitScheme
  rw [splitFirst_append hcolon]
  obtain ⟨c, cs, rfl⟩ := List.exists_cons_of_ne_nil h1
  have hhead : isAsciiAlpha c = true := halpha c (List.mem_cons_self c cs)
  have hsch : (c :: cs).all schemeChar = true := by
    simp only [List.all_eq_true]
    intro a ha
    have := halpha a ha
    simp [schemeChar, this]
  simp [hhead, hsch]

theorem tail_stops (path : List Char) (q f : Option (List Char))
    (hhead : path = [] ∨ ∃ t, path = '/' :: t) :
    (path ++ (qpart q ++ fpart f)).takeWhile (fun c => !netlocEnd c) = [] ∧
      (path ++ (qpart q ++ fpart f)).dropWhile (fun c => !netlocEnd c)
        = path ++ (qpart q ++ fpart f) := by
  rcases hhead with rfl | ⟨t, rfl⟩
  · cases q with
    | some q' =>
      simp only [qpart, List.nil_append, List.cons_append]
      exact ⟨takeWhile_cons_of_neg (by decide), dropWhile_cons_of_neg (by decide)⟩
    | none =>
      cases f with
      | some f' =>
        simp only [qpart, fpart, List.nil_append]
        exact ⟨takeWhile_cons_of_neg (by decide), dropWhile_cons_of_neg (by decide)⟩
      | none => simp [qpart, fpart]
  · simp only [List.cons_append]
    exact ⟨takeWhile_cons_of_neg (by decide), dropWhile_cons_of_neg (by decide)⟩

/-- On every URL of the spec's grammar, the modelled `urlparse` recovers the
components of the rendered text (the scheme already lower-cased, as CPython
does). -/
theorem urlsplitE_render (u : WfUrl) (h : u.wf = true) :
    urlsplitE u.render =
      Except.ok ⟨lower u.scheme, u.host, u.path, u.query.getD [], u.fragment.getD []⟩ := by
  simp only [WfUrl.wf, Bool.and_eq_true] at h
  obtain ⟨⟨⟨⟨⟨⟨⟨h1, h2⟩, h3⟩, h4⟩, h5⟩, h6⟩, h7⟩, h8⟩ := h
  have hsne : u.scheme ≠ [] := by simpa using h1
  have hhostc : ∀ c ∈ u.host, netlocEnd c = false ∧ c ≠ '[' ∧ c ≠ ']' := by
    intro c hc
    have := (List.all_eq_true.mp h4) c hc
    unfold hostChar at this
    simp only [Bool.and_eq_true, Bool.not_eq_true'] at this
    exact ⟨this.1.1, by simpa using this.1.2, by simpa using this.2⟩
  have hpathc : ∀ c ∈ u.path, c ≠ '?' ∧ c ≠ '#' ∧ c ≠ ';' := by
    intro c hc
    have := (List.all_eq_true.mp h7) c hc
    unfold pathChar at this
    simp only [Bool.and_eq_true, Bool.not_eq_true'] at this
    exact ⟨by simpa using this.1.1, by simpa using this.1.2, by simpa using this.2⟩
  have hnotq : '?' ∉ u.path := fun m => (hpathc _ m).1 rfl
  have hnoth : '#' ∉ u.path := fun m => (hpathc _ m).2.1 rfl
  have hnok : netlocOk u.host = true := by
    have hbrL : ('[' : Char) ∉ u.host := fun m => (hhostc _ m).2.1 rfl
    have hbrR : (']' : Char) ∉ u.host := fun m => (hhostc _ m).2.2 rfl
    unfold netlocOk
    rw [contains_eq_false_of_not_mem hbrL, contains_eq_false_of_not_mem hbrR]
    rfl
  have hns : ∀ c ∈ u.host, (fun c => !netlocEnd c) c = true := by
    intro c hc
    simp [(hhostc c hc).1]
  have hpathHead : u.path = [] ∨ ∃ t, u.path = '/' :: t := by
    cases hp : u.path with
    | nil => exact Or.inl rfl
    | cons c t =>
      rw [hp] at h6
      simp at h6
      exact Or.inr ⟨t, by rw [h6]⟩
  have hnothq : '#' ∉ u.path ++ qpart u.query := by
    intro m
    rcases List.mem_append.mp m with m | m
    · exact hnoth m
    · cases hq : u.query with
      | none => rw [hq] at m; simp [qpart] at m
      | some q' =>
        rw [hq] at m
        simp only [qpart] at m
        rcases List.mem_cons.mp m with e | m
        · exact absurd e (by decide)
        · rw [hq] at h8
          unfold queryOkB at h8
          simp only [Bool.and_eq_true, List.all_eq_true] at h8
          have := h8.2 '#' m
          simp at this
  have e1 : splitScheme u.render =
      (lower u.scheme, '/' :: '/' :: (u.host ++ (u.path ++ (qpart u.query ++ fpart u.fragment)))) := by
    have hr : u.render =
        u.scheme ++ ':' :: ('/' :: '/' :: (u.host ++ (u.path ++ (qpart u.query ++ fpart u.fragment)))) := by
      unfold WfUrl.render
      simp [List.append_assoc]
    rw [hr]
    exact splitScheme_append hsne h2
  have e2 : splitNetloc ('/' :: '/' :: (u.host ++ (u.path ++ (qpart u.query ++ fpart u.fragment)))) =
      (u.host, u.path ++ (qpart u.query ++ fpart u.fragment)) := by
    simp only [splitNetloc]
    rw [takeWhile_append_of_all hns, dropWhile_append_of_all hns,
      (tail_stops u.path u.query u.fragment hpathHead).1,
      (tail_stops u.path u.query u.fragment hpathHead).2]
    simp
  cases hq : u.query with
  | some q' =>
    rw [hq] at e1 e2 hnothq
    cases hf : u.fragment with
    | some f' =>
      rw [hf] at e1 e2
      have e3 : splitFirst '#' (u.path ++ (qpart (some q') ++ fpart (some f'))) =
          some (u.path ++ qpart (some q'), f') := by
        have hsh : u.path ++ (qpart (some q') ++ fpart (some f'))
            = (u.path ++ qpart (some q')) ++ '#' :: f' := by
          simp [qpart, fpart, List.append_assoc]
        rw [hsh]
        exact splitFirst_append hnothq
      have e4 : splitFirst '?' (u.path ++ qpart (some q')) = some (u.path, q') := by
        simp only [qpart]
        exact splitFirst_append hnotq
      simp only [urlsplitE, e1, e2, e3, e4, hnok]
      simp
    | none =>
      rw [hf] at e1 e2
      have e3 : splitFirst '#' (u.path ++ (qpart (some q') ++ fpart none)) = none := by
        apply splitFirst_of_not_mem
        intro m
        rw [fpart, List.append_nil] at m
        exact hnothq m
      have e4 : splitFirst '?' (u.path ++ (qpart (some q') ++ fpart none)) =
          some (u.path, q' ++ fpart none) := by
        simp only [qpart, fpart, List.append_nil]
        exact splitFirst_append hnotq
      simp only [urlsplitE, e1, e2, e3, e4, hnok]
      simp [fpart]
  | none =>
    rw [hq] at e1 e2 hnothq
    cases hf : u.fragment with
    | some f' =>
      rw [hf] at e1 e2
      have e3 : splitFirst '#' (u.path ++ (qpart none ++ fpart (some f'))) =
          some (u.path ++ qpart none, f') := by
        have hsh : u.path ++ (qpart none ++ fpart (some f'))
            = (u.path ++ qpart none) ++ '#' :: f' := by
          simp [qpart, fpart]
        rw [hsh]
        exact splitFirst_append hnothq
      have e4 : splitFirst '?' (u.path ++ qpart none) = none := by
        apply splitFirst_of_not_mem
        intro m
        simp only [qpart, List.append_nil] at m
        exact hnotq m
      simp only [urlsplitE, e1, e2, e3, e4, hnok]
      simp [qpart]
    | none =>
      rw [hf] at e1 e2
      have e3 : splitFirst '#' (u.path ++ (qpart none ++ fpart none)) = none := by
        apply splitFirst_of_not_mem
        intro m
        simp only [qpart, fpart, List.append_nil] at m
        exact hnoth m
      have e4 : splitFirst '?' (u.path ++ (qpart none ++ fpart none)) = none := by
        apply splitFirst_of_not_mem
        intro m
        simp only [qpart, fpart, List.append_nil] at m
        exact hnotq m
      simp only [urlsplitE, e1, e2, e3, e4, hnok]
      simp [qpart, fpart]

theorem urlparseE_render (u : WfUrl) (h : u.wf = true) :
    urlparseE u.render =
      Except.ok ⟨lower u.scheme, u.host, u.path, [], u.query.getD [], u.fragment.getD []⟩ := by
  have hsemi : ';' ∉ u.path := by
    have hw := h
    simp only [WfUrl.wf, Bool.and_eq_true] at hw
    intro m
    have := (List.all_eq_true.mp hw.1.2) _ m
    simp [pathChar] at this
  unfold urlparseE
  rw [urlsplitE_render u h]
  simp [splitParams_of_not_mem hsemi]

/-- Branch taken by `normalize_url` when `urlparse` raises: the input comes
back unchanged. -/
theorem normalize_url_of_error {l : List Char} (h : urlparseE l = .error ()) :
    normalize_url l = l := by
  unfold normalize_url
  rw [h]

/-- On grammar URLs, `normalize_url` computes exactly the spec's §4.2 normal
form: scheme lower-cased, host lower-cased with one leading `www.` label
stripped, path and query untouched, fragment dropped. -/
theorem normalize_url_render (u : WfUrl) (h : u.wf = true) :
    normalize_url u.render = u.specNormal.render := by
  have hw := h
  simp only [WfUrl.wf, Bool.and_eq_true] at hw
  obtain ⟨⟨⟨⟨⟨⟨⟨h1, h2⟩, h3⟩, h4⟩, h5⟩, h6⟩, h7⟩, h8⟩ := hw
  have hnetne : stripWww (lower u.host) ≠ [] := by simpa using h5
  have hschne : lower u.scheme ≠ [] := by
    have hne : u.scheme ≠ [] := by simpa using h1
    simpa [lower] using hne
  have hpathHead : u.path = [] ∨ ∃ t, u.path = '/' :: t := by
    cases hp : u.path with
    | nil => exact Or.inl rfl
    | cons c t =>
      rw [hp] at h6
      simp at h6
      exact Or.inr ⟨t, by rw [h6]⟩
  have hinner : ¬(u.path ≠ [] ∧ u.path.take 1 ≠ ['/']) := by
    rcases hpathHead with hp | ⟨t, hp⟩
    · simp [hp]
    · simp [hp]
  unfold normalize_url
  rw [urlparseE_render u h]
  show urlunparse ⟨lower (lower u.scheme), stripWww (lower u.host), u.path, [],
    u.query.getD [], []⟩ = _
  unfold urlunparse urlunsplit
  simp only [lower_idem]
  cases hq : u.query with
  | some q' =>
    have hqne : q' ≠ [] := by
      rw [hq] at h8
      unfold queryOkB at h8
      simp only [Bool.and_eq_true] at h8
      simpa using h8.1
    simp [hnetne, hinner, hschne, hqne, hq, WfUrl.specNormal, WfUrl.render, qpart, fpart]
  | none =>
    simp [hnetne, hinner, hschne, hq, WfUrl.specNormal, WfUrl.render, qpart, fpart]

/-! ## Claim about the normalizer (C2) -/

/-- **C2.**  `normalize_url` is total — a function defined on every string,
whose exception branch hands the input back — and never raises; on every URL
of the spec's grammar it lower-cases the scheme, lower-cases the host and
strips one leading `www.` label, keeps path and query exactly, and drops the
fragment (producing the rendered spec normal form); unparseable inputs (the
`ValueError` branch of `urlparse`, a netloc with mismatched brackets) come
back unchanged; the claimed concrete equivalence holds, and trailing-slash,
path-case and query-order variants keep distinct keys. -/
theorem C2_normalize_contract :
    (∀ u : WfUrl, u.wf = true → normalize_url u.render = u.specNormal.render) ∧
    (∀ l : List Char, urlparseE l = .error () → normalize_url l = l) ∧
    normalizeUrl "HTTP://WWW.Example.com/a#frag" = normalizeUrl "http://example.com/a" ∧
    normalizeUrl "http://example.com/a" ≠ normalizeUrl "http://example.com/a/" ∧
    normalizeUrl "http://example.com/A" ≠ normalizeUrl "http://example.com/a" ∧
    normalizeUrl "http://example.com/a?x=1&y=2" ≠ normalizeUrl "http://example.com/a?y=2&x=1" :=
  ⟨normalize_url_render, fun _ h => normalize_url_of_error h,
   by decide, by decide, by decide, by decide⟩

/-- **C2 witness**: the grammar contract at a concrete URL, the
well-formedness hypothesis discharged by computation. -/
theorem C2_witness :
    (WfUrl.mk "HTTPS".data "WWW.Site.org".data "/Path".data (some "q=1".data)
        (some "sec".data)).wf = true ∧
    normalize_url (WfUrl.mk "HTTPS".data "WWW.Site.org".data "/Path".data (some "q=1".data)
        (some "sec".data)).render
      = (WfUrl.mk "HTTPS".data "WWW.Site.org".data "/Path".data (some "q=1".data)
        (some "sec".data)).specNormal.render :=
  ⟨by decide,
   C2_normalize_contract.1
     (WfUrl.mk "HTTPS".data "WWW.Site.org".data "/Path".data (some "q=1".data)
       (some "sec".data)) (by decide)⟩

/-! ## Registry lemmas -/

theorem lookup_append_of_not_key {l₁ l₂ : List (String × Metadata)} {u : String}
    (h : u ∉ l₁.map Prod.fst) : (l₁ ++ l₂).lookup u = l₂.lookup u := by
  induction l₁ with
  | nil => rfl
  | cons kv t ih =>
    obtain ⟨k, v⟩ := kv
    have hk : ¬u = k := fun e => h (by simp [e])
    have ht : u ∉ t.map Prod.fst := fun m => h (by simp [m])
    have hbeq : (u == k) = false := beq_eq_false_iff_ne.mpr hk
    simp [List.lookup, hbeq, ih ht]

theorem lookup_singleton_self (u : String) (m : Metadata) :
    ([(u, m)] : List (String × Metadata)).lookup u = some m := by
  simp [List.lookup]

theorem lookup_map_update (l : List (String × Metadata)) (u : String)
    (g : Metadata → Metadata) :
    (l.map fun kv => if kv.1 = u then (kv.1, g kv.2) else kv).lookup u
      = (l.lookup u).map g := by
  induction l with
  | nil => rfl
  | cons kv t ih =>
    obtain ⟨k, v⟩ := kv
    by_cases hk : k = u
    · subst hk
      simp only [List.map_cons, if_pos rfl]
      simp [List.lookup, ih]
    · have hbeq : (u == k) = false := beq_eq_false_iff_ne.mpr fun e => hk e.symm
      simp only [List.map_cons, if_neg hk]
      simp [List.lookup, hbeq, ih]

theorem lookup_map_update_ne (l : List (String × Metadata)) (u k : String)
    (g : Metadata → Metadata) (hne : k ≠ u) :
    (l.map fun kv => if kv.1 = u then (kv.1, g kv.2) else kv).lookup k = l.lookup k := by
  induction l with
  | nil => rfl
  | cons kv t ih =>
    obtain ⟨k₀, v⟩ := kv
    by_cases hk : k₀ = u
    · subst hk
      have hbeq : (k == k₀) = false := beq_eq_false_iff_ne.mpr hne
      simp only [List.map_cons, if_pos rfl]
      simp [List.lookup, hbeq, ih]
    · by_cases he : k = k₀
      · subst he
        simp only [List.map_cons, if_neg hk]
        simp [List.lookup]
      · have hbeq : (k == k₀) = false := beq_eq_false_iff_ne.mpr he
        simp only [List.map_cons, if_neg hk]
        simp [List.lookup, hbeq, ih]

theorem export_filter_count (l : List (String × Metadata)) (u : String) :
    ((l.map fun kv =>
        [kv.1, optStr kv.2.timestamp, optNatStr kv.2.version, optStr kv.2.qr_data]).filter
      fun row => row.head?.getD "" == u).length = (l.map Prod.fst).count u := by
  induction l with
  | nil => rfl
  | cons kv t ih =>
    by_cases hk : kv.1 = u
    · simp [List.count_cons, hk, ih]
    · simp [List.count_cons, hk, ih, Ne.symm hk]

/-! ## Claims about the URL registry (C1, C5, C6) -/

/-- **C1 counterexample.**  `"HTTP://WWW.Example.com/a#frag"` and
`"http://example.com/a"` have the same normalized key, yet registering both in
one `URLManager` creates two records with different ids: `add_url` keys on the
literal URL (`_hash_url` is the identity), not on the normalized key. -/
theorem C1_counterexample :
    normalizeUrl "HTTP://WWW.Example.com/a#frag" = normalizeUrl "http://example.com/a" ∧
    (add_url (add_url initialUM "HTTP://WWW.Example.com/a#frag").2 "http://example.com/a").1.id
      ≠ (add_url initialUM "HTTP://WWW.Example.com/a#frag").1.id ∧
    (add_url (add_url initialUM "HTTP://WWW.Example.com/a#frag").2
      "http://example.com/a").2.urls.length = 2 := by
  decide

/-- **C1** (amended).  `URLManager.add_url` decides identity by the literal
raw URL string — `_hash_url` returns the URL itself — not by the normalized
key: it preserves the registry invariant, and the registry always holds
exactly one record keyed by the registered string and at most one record per
distinct raw URL string.  (Normalized-key deduplication happens upstream in
`URLProcessor.deduplicate_urls`, within a single batch only.) -/
theorem C1_one_record_per_literal_url (s : UMState) (u : String) (h : UMInv s) :
    UMInv (add_url s u).2 ∧
    ((add_url s u).2.urls.map Prod.fst).count u = 1 ∧
    ∀ v, ((add_url s u).2.urls.map Prod.fst).count v ≤ 1 := by
  obtain ⟨hnd, hsub1, hsub2⟩ := h
  by_cases hmem : u ∈ s.url_hashes
  · simp only [add_url, hash_url, hmem, if_true]
    refine ⟨⟨hnd, hsub1, hsub2⟩, ?_, ?_⟩
    · exact List.count_eq_one_of_mem hnd (hsub1 u hmem)
    · exact fun v => List.nodup_iff_count_le_one.mp hnd v
  · have hnotkey : u ∉ s.urls.map Prod.fst := fun m => hmem (hsub2 u m)
    simp only [add_url, hash_url, hmem, if_false]
    have hkeys : ((s.urls ++ [(u, mkMetadata u s.nextId)]).map Prod.fst)
        = s.urls.map Prod.fst ++ [u] := by simp
    have hnd' : ((s.urls ++ [(u, mkMetadata u s.nextId)]).map Prod.fst).Nodup := by
      rw [hkeys]
      simp [List.nodup_append, hnd, hnotkey]
    refine ⟨⟨hnd', ?_, ?_⟩, ?_, ?_⟩
    · intro x hx
      rw [hkeys]
      rcases List.mem_cons.mp hx with e | hxm
      · subst e
        simp
      · exact List.mem_append_left _ (hsub1 x hxm)
    · intro x hx
      rw [hkeys] at hx
      rcases List.mem_append.mp hx with hxm | hxs
      · exact List.mem_cons_of_mem _ (hsub2 x hxm)
      · simp only [List.mem_singleton] at hxs
        subst hxs
        exact List.mem_cons_self _ _
    · rw [hkeys]
      simp [List.count_append, List.count_eq_zero_of_not_mem hnotkey]
    · exact fun v => List.nodup_iff_count_le_one.mp hnd' v

/-- **C1 witness**: the amended statement at a concrete registry. -/
theorem C1_witness :
    UMInv (add_url initialUM "http://a.com").2 ∧
    ((add_url initialUM "http://a.com").2.urls.map Prod.fst).count "http://a.com" = 1 :=
  ⟨(C1_one_record_per_literal_url initialUM "http://a.com" (by decide)).1,
   (C1_one_record_per_literal_url initialUM "http://a.com" (by decide)).2.1⟩

/-- **C5.**  `add_url` is idempotent on the literal URL: a second registration
returns the same id, leaves the registry unchanged, and the exported CSV
contains exactly one data row whose url column is `u`. -/
theorem C5_register_idempotent (s : UMState) (u : String) (h : UMInv s) :
    (add_url (add_url s u).2 u).1.id = (add_url s u).1.id ∧
    (add_url (add_url s u).2 u).2 = (add_url s u).2 ∧
    (((export_to_csv (add_url s u).2).drop 1).filter
        fun row => row.head?.getD "" == u).length = 1 := by
  obtain ⟨hnd, hsub1, hsub2⟩ := h
  by_cases hmem : u ∈ s.url_hashes
  · simp only [add_url, hash_url, hmem, if_true]
    refine ⟨by trivial, by trivial, ?_⟩
    simp only [export_to_csv, List.drop_succ_cons, List.drop_zero, export_filter_count]
    exact List.count_eq_one_of_mem hnd (hsub1 u hmem)
  · have hnotkey : u ∉ s.urls.map Prod.fst := fun m => hmem (hsub2 u m)
    have hlook : ((s.urls ++ [(u, mkMetadata u s.nextId)]).lookup u)
        = some (mkMetadata u s.nextId) := by
      rw [lookup_append_of_not_key hnotkey, lookup_singleton_self]
    simp only [add_url, hash_url, hmem, if_false, List.mem_cons, true_or, if_true]
    refine ⟨?_, by trivial, ?_⟩
    · simp [hlook]
    · simp only [export_to_csv, List.drop_succ_cons, List.drop_zero, export_filter_count]
      simp [List.count_append, List.count_eq_zero_of_not_mem hnotkey]

/-- **C5 witness**: idempotent registration at a concrete registry. -/
theorem C5_witness :
    (add_url (add_url (add_url initialUM "http://a.com").2 "http://a.com").2 "http://a.com").1.id
      = (add_url (add_url initialUM "http://a.com").2 "http://a.com").1.id :=
  (C5_register_idempotent (add_url initialUM "http://a.com").2 "http://a.com" (by decide)).1

/-- **C6 counterexample.**  Re-marking an already Processed record is not a
no-op: the second `mark_as_processed` overwrites version (2 becomes 3),
timestamp and QR data. -/
theorem C6_counterexample :
    (((mark_as_processed (mark_as_processed (add_url initialUM "http://a.com").2
        "http://a.com" 2 "01" "t1") "http://a.com" 3 "10" "t2").urls.lookup
        "http://a.com").map Metadata.version) = some (some 3) ∧
    (((mark_as_processed (add_url initialUM "http://a.com").2
        "http://a.com" 2 "01" "t1").urls.lookup "http://a.com").map Metadata.version)
      = some (some 2) ∧
    (((mark_as_processed (add_url initialUM "http://a.com").2
        "http://a.com" 2 "01" "t1").urls.lookup "http://a.com").map Metadata.processed)
      = some true := by
  decide

/-- **C6** (amended).  `mark_as_processed` is a no-op when the record is
missing; when the record exists it sets `processed`, `timestamp`, `version`
and `qr_data` unconditionally — last write wins, even on an already Processed
record — and leaves every other key untouched. -/
theorem C6_mark_as_processed_overwrites (s : UMState) (url : String) (v : Nat)
    (qd now : String) :
    (s.urls.lookup url = none → mark_as_processed s url v qd now = s) ∧
    (∀ m, s.urls.lookup url = some m →
      (mark_as_processed s url v qd now).urls.lookup url
          = some (processedUpdate v qd now m) ∧
      ∀ k, k ≠ url → (mark_as_processed s url v qd now).urls.lookup k = s.urls.lookup k) := by
  constructor
  · intro hn
    unfold mark_as_processed
    simp [hn]
  · intro m hm
    unfold mark_as_processed
    simp only [hm, Option.isSome_some, if_true]
    constructor
    · rw [lookup_map_update s.urls url (processedUpdate v qd now)]
      simp [hm]
    · intro k hk
      exact lookup_map_update_ne s.urls url k (processedUpdate v qd now) hk

/-- **C6 witness**: the no-op branch on a registry without the key, and the
overwrite branch on a concrete record. -/
theorem C6_witness :
    mark_as_processed initialUM "http://x.com" 1 "0" "t" = initialUM ∧
    (mark_as_processed (add_url initialUM "http://a.com").2 "http://a.com" 2 "01"
        "t1").urls.lookup "http://a.com"
      = some (processedUpdate 2 "01" "t1" (mkMetadata "http://a.com" 0)) :=
  ⟨(C6_mark_as_processed_overwrites initialUM "http://x.com" 1 "0" "t").1 (by decide),
   ((C6_mark_as_processed_overwrites (add_url initialUM "http://a.com").2 "http://a.com" 2
      "01" "t1").2 (mkMetadata "http://a.com" 0) (by decide)).1⟩

/-! ## Encoder lemmas -/

theorem capacity_mono40 : ∀ lvl : ECLevel, ∀ v < 41, byteCapacity lvl v ≤ byteCapacity lvl 40 := by
  intro lvl
  cases lvl <;> decide

theorem fitVersionFuel_none (lvl : ECLevel) (len : Nat) :
    ∀ fuel v, (∀ w, v ≤ w → w ≤ 40 → byteCapacity lvl w < len) →
      fitVersionFuel lvl len v fuel = none := by
  intro fuel
  induction fuel with
  | zero =>
    intro v _
    rfl
  | succ n ih =>
    intro v h
    unfold fitVersionFuel
    by_cases h40 : 40 < v
    · simp [h40]
    · have hlt : byteCapacity lvl v < len := h v le_rfl (by omega)
      have hnfit : ¬len ≤ byteCapacity lvl v := by omega
      simp only [h40, if_false, hnfit]
      exact ih (v + 1) fun w hw1 hw2 => h w (by omega) hw2

theorem fitVersion_none_of_overflow (lvl : ECLevel) (len : Nat)
    (h : byteCapacity lvl 40 < len) : fitVersion lvl len = none := by
  apply fitVersionFuel_none
  intro w hw1 hw2
  exact lt_of_le_of_lt (capacity_mono40 lvl w (by omega)) h

theorem fitVersionFuel_some (lvl : ECLevel) (len : Nat) :
    ∀ fuel v, v + fuel = 41 → 1 ≤ v →
      (∀ w, 1 ≤ w → w < v → byteCapacity lvl w < len) →
      len ≤ byteCapacity lvl 40 →
      ∃ r, fitVersionFuel lvl len v fuel = some r ∧ v ≤ r ∧ r ≤ 40 ∧
        len ≤ byteCapacity lvl r ∧
        ∀ w, 1 ≤ w → w < r → byteCapacity lvl w < len := by
  intro fuel
  induction fuel with
  | zero =>
    intro v hv h1 hmin hcap
    exact absurd (hmin 40 (by omega) (by omega)) (by omega)
  | succ n ih =>
    intro v hv h1 hmin hcap
    have h40 : ¬40 < v := by omega
    by_cases hfit : len ≤ byteCapacity lvl v
    · refine ⟨v, ?_, le_rfl, by omega, hfit, hmin⟩
      unfold fitVersionFuel
      simp [h40, hfit]
    · have hstep : ∀ w, 1 ≤ w → w < v + 1 → byteCapacity lvl w < len := by
        intro w hw1 hw2
        rcases Nat.lt_succ_iff_lt_or_eq.mp hw2 with hlt | heq
        · exact hmin w hw1 hlt
        · subst heq
          omega
      obtain ⟨r, hr, hvr, hr40, hcapr, hminr⟩ := ih (v + 1) (by omega) (by omega) hstep hcap
      refine ⟨r, ?_, by omega, hr40, hcapr, hminr⟩
      unfold fitVersionFuel
      simp [h40, hfit, hr]

theorem fitVersion_some_of_fits (lvl : ECLevel) (len : Nat)
    (h : len ≤ byteCapacity lvl 40) :
    ∃ r, fitVersion lvl len = some r ∧ 1 ≤ r ∧ r ≤ 40 ∧ len ≤ byteCapacity lvl r ∧
      ∀ w, 1 ≤ w → w < r → byteCapacity lvl w < len := by
  obtain ⟨r, hr, h1, h40, hc, hm⟩ :=
    fitVersionFuel_some lvl len 40 1 (by omega) le_rfl (fun w hw1 hw2 => by omega) h
  exact ⟨r, hr, h1, h40, hc, hm⟩

theorem foldl_bits (row : List Bool) (acc : List Char) :
    row.foldl (fun a cell => a ++ [bitChar cell]) acc = acc ++ row.map bitChar := by
  induction row generalizing acc with
  | nil => simp
  | cons b t ih => simp [ih, List.append_assoc]

/-- The `binary_data` loop of the code builds exactly the spec's row-major
serialization. -/
theorem flattenBinary_eq_rowMajor (m : List (List Bool)) :
    flattenBinary m = rowMajorBits m := by
  suffices h : ∀ acc,
      m.foldl (fun acc row => row.foldl (fun a cell => a ++ [bitChar cell]) acc) acc
        = acc ++ (m.map fun row => row.map bitChar).flatten by
    simpa [flattenBinary, rowMajorBits] using h []
  induction m with
  | nil =>
    intro acc
    simp
  | cons r t ih =>
    intro acc
    rw [List.foldl_cons, foldl_bits, ih, List.map_cons, List.flatten_cons, List.append_assoc]

theorem bitChar_injective : Function.Injective bitChar := by
  intro a b hab
  cases a <;> cases b <;> first | rfl | exact absurd hab (by decide)

/-- The flattened "0"/"1" string determines the matrix (matrices of the same
shape with equal serializations are equal). -/
theorem flattenBinary_inj (m₁ m₂ : List (List Bool))
    (hshape : m₁.map List.length = m₂.map List.length)
    (h : flattenBinary m₁ = flattenBinary m₂) : m₁ = m₂ := by
  rw [flattenBinary_eq_rowMajor, flattenBinary_eq_rowMajor] at h
  unfold rowMajorBits at h
  induction m₁ generalizing m₂ with
  | nil =>
    cases m₂ with
    | nil => rfl
    | cons r t => simp at hshape
  | cons r t ih =>
    cases m₂ with
    | nil => simp at hshape
    | cons r₂ t₂ =>
      simp only [List.map_cons, List.flatten_cons] at h
      simp only [List.map_cons, List.cons.injEq] at hshape
      obtain ⟨hlen, hshape2⟩ := hshape
      have hlen2 : (r.map bitChar).length = (r₂.map bitChar).length := by simp [hlen]
      obtain ⟨h1, h2⟩ := List.append_inj h hlen2
      have hr : r = r₂ := List.map_injective_iff.mpr bitChar_injective h1
      subst hr
      rw [ih t₂ hshape2 h2]

/-! ## Claims about the encoder (C3, C7, C8, C9) -/

/-- **C3.**  The encoder is deterministic: `QRGenerator.generate` is a pure
function of the module pattern (the development covers every deterministic
qrcode implementation), the configuration and the payload, so two runs on the
same inputs agree exactly; and the flattened "0"/"1" string determines the bit
matrix, so byte-identical binary strings of same-shaped matrices mean
byte-identical matrices. -/
theorem C3_encode_deterministic :
    (∀ (f : ModuleFn) (cfg : QRConfig) (url : List Char),
      QRGenerator.generate f cfg url = QRGenerator.generate f cfg url) ∧
    (∀ m₁ m₂ : List (List Bool), m₁.map List.length = m₂.map List.length →
      flattenBinary m₁ = flattenBinary m₂ → m₁ = m₂) :=
  ⟨fun _ _ _ => rfl, fun m₁ m₂ h1 h2 => flattenBinary_inj m₁ m₂ h1 h2⟩

/-- **C3 witness**: the determinism statement at a concrete payload and a
concrete pair of matrices. -/
theorem C3_witness :
    QRGenerator.generate constModule defaultConfig "http://a.com".data
      = QRGenerator.generate constModule defaultConfig "http://a.com".data ∧
    ([[true, false]] : List (List Bool)) = [[true, false]] :=
  ⟨C3_encode_deterministic.1 constModule defaultConfig "http://a.com".data,
   C3_encode_deterministic.2 [[true, false]] [[true, false]] (by decide) (by decide)⟩

/-- **C7 counterexample.**  A payload of 2954 bytes exceeds the version-40/L
capacity (2953), yet `generate_qr_code` (src/generate-qr-code.py) returns
normally: its `try/except Exception` catches the overflow and prints, so the
failure does not propagate to its caller — the claim's "propagates … never
swallowed" fails on this encoder entry point. -/
theorem C7_counterexample :
    byteCapacity ECLevel.L 40 < (List.replicate 2954 'a').length ∧
    generate_qr_code constModule (List.replicate 2954 'a') = ⟨none, none, true⟩ := by
  have hlen : (List.replicate 2954 'a').length = 2954 := List.length_replicate 2954 'a'
  constructor
  · rw [hlen]
    decide
  · unfold generate_qr_code
    rw [hlen, fitVersion_none_of_overflow ECLevel.L 2954 (by decide)]

/-- **C7** (amended).  In `QRGenerator.generate` the overflow condition
propagates to the caller as an error (no handler, nothing truncated, no
output), and every payload within the version-40 capacity at the configured
level encodes at the minimal fitting version; in `generate_qr_code`
(src/generate-qr-code.py) the overflow is caught by the blanket
`except Exception` and only printed — it does not propagate, though nothing is
silently truncated either (no files are produced). -/
theorem C7_overflow_handling (f : ModuleFn) (cfg : QRConfig) (url : List Char) :
    (byteCapacity cfg.error_correction 40 < url.length →
      QRGenerator.generate f cfg url = .error ()) ∧
    (url.length ≤ byteCapacity cfg.error_correction 40 →
      ∃ v, fitVersion cfg.error_correction url.length = some v ∧
        1 ≤ v ∧ v ≤ 40 ∧ url.length ≤ byteCapacity cfg.error_correction v ∧
        (∀ w, 1 ≤ w → w < v → byteCapacity cfg.error_correction w < url.length) ∧
        QRGenerator.generate f cfg url =
          .ok (⟨qrMatrixRows f cfg.error_correction url v cfg.border, cfg.box_size⟩,
            flattenBinary (qrMatrixRows f cfg.error_correction url v cfg.border))) ∧
    (byteCapacity ECLevel.L 40 < url.length →
      generate_qr_code f url = ⟨none, none, true⟩) := by
  refine ⟨?_, ?_, ?_⟩
  · intro h
    unfold QRGenerator.generate
    rw [fitVersion_none_of_overflow _ _ h]
  · intro h
    obtain ⟨v, hv, h1, h40, hc, hm⟩ := fitVersion_some_of_fits _ _ h
    refine ⟨v, hv, h1, h40, hc, hm, ?_⟩
    unfold QRGenerator.generate
    rw [hv]
  · intro h
    unfold generate_qr_code
    rw [fitVersion_none_of_overflow _ _ h]

/-- **C7 witness**: both overflow branches at a concrete oversized payload. -/
theorem C7_witness :
    QRGenerator.generate constModule defaultConfig (List.replicate 2954 'a') = .error () ∧
    generate_qr_code constModule (List.replicate 2954 'a') = ⟨none, none, true⟩ :=
  ⟨(C7_overflow_handling constModule defaultConfig (List.replicate 2954 'a')).1
      (by simp only [List.length_replicate]; decide),
   (C7_overflow_handling constModule defaultConfig (List.replicate 2954 'a')).2.2
      (by simp only [List.length_replicate]; decide)⟩

/-- **C8.**  The binary sidecar content is exactly the UTF-8 header
`Link: <url>\nVersion: <n>\n` followed immediately — no separator — by the
row-major "1"/"0" serialization of the matrix (dark = '1', light = '0'). -/
theorem C8_binary_sidecar (m : List (List Bool)) (url : List Char) (v : Nat) :
    save_binary_data m url v =
      ("Link: ".data ++ url ++ "\nVersion: ".data ++ (toString v).data ++ ['\n'])
        ++ rowMajorBits m := by
  unfold save_binary_data headerBytes
  rw [flattenBinary_eq_rowMajor]

/-- **C9** (code bug).  For the 18-byte URL `http://example.com` the
auto-selected minimal version at level L is 2 (version 1 holds 17 bytes), but
the `process_file` loop of src/main.py passes the literal `1` to
`CSVManager.add_entry`: the persisted version column is a fixed constant, not
the QR version of the generated symbol. -/
theorem C9_version_column_is_constant :
    "http://example.com".data.length = 18 ∧
    fitVersion ECLevel.L 18 = some 2 ∧
    (process_new_urls constModule defaultConfig ["http://example.com".data]).map
        (fun l => l.map CsvEntry.qr_version) = .ok [1] ∧
    (2 : Nat) ≠ 1 := by
  refine ⟨by decide, by decide, by rfl, by decide⟩

/-! ## Layout lemmas -/

theorem pdf_cell_eq_some {entries : List PdfEntry} {i q : Nat} {pl : Placement}
    (h : pdf_cell entries i q = some pl) :
    pl.entry_idx = i ∧
    pl.x = (quadrant_centers.getD q (0, 0)).1 - qr_size / 2 ∧
    pl.y = (quadrant_centers.getD q (0, 0)).2 - qr_size / 2 ∧
    ∃ e, entries[i]? = some e ∧ e.image_data ≠ "" := by
  unfold pdf_cell at h
  cases he : entries[i]? with
  | none =>
    rw [he] at h
    exact absurd h (by simp)
  | some e =>
    rw [he] at h
    dsimp only at h
    by_cases hid : e.image_data = ""
    · rw [if_pos hid] at h
      exact absurd h (by simp)
    · rw [if_neg hid] at h
      injection h with h2
      subst h2
      exact ⟨rfl, rfl, rfl, e, rfl, hid⟩

theorem pdf_cell_some_of {entries : List PdfEntry} {i : Nat} (q : Nat) {e : PdfEntry}
    (he : entries[i]? = some e) (hne : e.image_data ≠ "") :
    pdf_cell entries i q =
      some ⟨i, (quadrant_centers.getD q (0, 0)).1 - qr_size / 2,
        (quadrant_centers.getD q (0, 0)).2 - qr_size / 2⟩ := by
  unfold pdf_cell
  rw [he]
  dsimp only
  rw [if_neg hne]

theorem pdf_cell_none_of_empty {entries : List PdfEntry} {i : Nat} (q : Nat) {e : PdfEntry}
    (he : entries[i]? = some e) (h0 : e.image_data = "") :
    pdf_cell entries i q = none := by
  unfold pdf_cell
  rw [he]
  dsimp only
  rw [if_pos h0]

theorem pdf_layout_page (entries : List PdfEntry) {p : Nat}
    (hp : p < (entries.length + 3) / 4) :
    (pdf_layout entries)[p]? =
      some ((List.range 4).filterMap fun q => pdf_cell entries (p * 4 + q) q) := by
  unfold pdf_layout
  rw [List.getElem?_map]
  simp [List.getElem?_range, hp]

/-! ## Claims about the quadrant layout (C4, C10) -/

/-- **C4.**  The quadrant layout emits `⌈n/4⌉` pages; entry `i` is drawn on
page `i / 4` in quadrant `i % 4` (quadrants in the code's row-major
top-left, top-right, bottom-left, bottom-right order), centered on its
quadrant center (placed at center minus half the 70 mm square size); the four
centers are `(W/4, H/4), (3W/4, H/4), (W/4, 3H/4), (3W/4, 3H/4)` of the
210×297 page; and 5 records give 2 pages, records 1–4 filling page 1 and
record 5 in page 2's top-left. -/
theorem C4_quadrant_layout (entries : List PdfEntry)
    (h : ∀ e ∈ entries, e.image_data ≠ "") :
    (pdf_layout entries).length = (entries.length + 3) / 4 ∧
    (∀ i, i < entries.length →
      ∃ page, (pdf_layout entries)[i / 4]? = some page ∧
        (⟨i, (quadrant_centers.getD (i % 4) (0, 0)).1 - qr_size / 2,
          (quadrant_centers.getD (i % 4) (0, 0)).2 - qr_size / 2⟩ : Placement) ∈ page) ∧
    quadrant_centers =
      [(page_width / 4, page_height / 4),
       (3 * page_width / 4, page_height / 4),
       (page_width / 4, 3 * page_height / 4),
       (3 * page_width / 4, 3 * page_height / 4)] ∧
    (pdf_layout (List.replicate 5 ⟨"img"⟩)).map (List.map Placement.entry_idx)
      = [[0, 1, 2, 3], [4]] := by
  refine ⟨by simp [pdf_layout], ?_,
    by norm_num [quadrant_centers, quadrant_width, quadrant_height, page_width, page_height],
    by rfl⟩
  intro i hi
  have hpage : i / 4 < (entries.length + 3) / 4 := by omega
  refine ⟨_, pdf_layout_page entries hpage, ?_⟩
  apply List.mem_filterMap.mpr
  refine ⟨i % 4, by simp [Nat.mod_lt i (by omega : 0 < 4)], ?_⟩
  have hidx : i / 4 * 4 + i % 4 = i := by omega
  rw [hidx]
  exact pdf_cell_some_of (i % 4) (List.getElem?_eq_getElem hi)
    (h entries[i] (List.getElem_mem hi))

/-- **C4 witness**: the layout contract at a concrete 5-entry input. -/
theorem C4_witness :
    (pdf_layout (List.replicate 5 ⟨"img"⟩)).length = ((List.replicate 5 (⟨"img"⟩ : PdfEntry)).length + 3) / 4 :=
  (C4_quadrant_layout (List.replicate 5 ⟨"img"⟩) (by decide)).1

/-- **C10** (implicit).  Slot assignment never repacks: the page count is
always `⌈n/4⌉`; an entry with non-empty image data is drawn on page `i / 4`
in quadrant `i % 4` whether or not earlier entries were skipped; an entry
with empty image data is drawn nowhere; every drawn placement sits at its own
entry's page and quadrant position; concretely, with entry 3 of 5 missing its
image, pages stay `[[0, 1, 3], [4]]` with entry 4 (0-based 3) still at
bottom-right and entry 5 still on page 2's top-left. -/
theorem C10_no_repacking (entries : List PdfEntry) :
    (pdf_layout entries).length = (entries.length + 3) / 4 ∧
    (∀ i e, entries[i]? = some e → e.image_data ≠ "" →
      ∃ page, (pdf_layout entries)[i / 4]? = some page ∧
        (⟨i, (quadrant_centers.getD (i % 4) (0, 0)).1 - qr_size / 2,
          (quadrant_centers.getD (i % 4) (0, 0)).2 - qr_size / 2⟩ : Placement) ∈ page) ∧
    (∀ i e, entries[i]? = some e → e.image_data = "" →
      ∀ page ∈ pdf_layout entries, ∀ pl ∈ page, pl.entry_idx ≠ i) ∧
    (∀ p page, (pdf_layout entries)[p]? = some page → ∀ pl ∈ page,
      pl.entry_idx / 4 = p ∧
      pl.x = (quadrant_centers.getD (pl.entry_idx % 4) (0, 0)).1 - qr_size / 2 ∧
      pl.y = (quadrant_centers.getD (pl.entry_idx % 4) (0, 0)).2 - qr_size / 2) ∧
    (pdf_layout [⟨"a"⟩, ⟨"b"⟩, ⟨""⟩, ⟨"d"⟩, ⟨"e"⟩]).map (List.map Placement.entry_idx)
      = [[0, 1, 3], [4]] := by
  refine ⟨by simp [pdf_layout], ?_, ?_, ?_, by rfl⟩
  · intro i e he hne
    have hi : i < entries.length := by
      have := List.getElem?_eq_some_iff.mp he
      exact this.choose
    have hpage : i / 4 < (entries.length + 3) / 4 := by omega
    refine ⟨_, pdf_layout_page entries hpage, ?_⟩
    apply List.mem_filterMap.mpr
    refine ⟨i % 4, by simp [Nat.mod_lt i (by omega : 0 < 4)], ?_⟩
    have hidx : i / 4 * 4 + i % 4 = i := by omega
    rw [hidx]
    exact pdf_cell_some_of (i % 4) he hne
  · intro i e he h0 page hpage pl hpl
    have hpage2 : ∃ a, a < (entries.length + 3) / 4 ∧
        (List.range 4).filterMap (fun q => pdf_cell entries (a * 4 + q) q) = page := by
      simpa [pdf_layout, List.mem_map] using hpage
    obtain ⟨p, hp, rfl⟩ := hpage2
    obtain ⟨q, hq, hcell⟩ := List.mem_filterMap.mp hpl
    obtain ⟨hidx, _, _, e', he', hne'⟩ := pdf_cell_eq_some hcell
    intro hcontra
    rw [hidx] at hcontra
    subst hcontra
    rw [he] at he'
    injection he' with he2
    subst he2
    exact hne' h0
  · intro p page hpage pl hpl
    have hp : p < (entries.length + 3) / 4 := by
      by_contra hnp
      rw [show (pdf_layout entries)[p]? = none from ?_] at hpage
      · exact Option.noConfusion hpage
      · apply List.getElem?_eq_none
        simp [pdf_layout]
        omega
    rw [pdf_layout_page entries hp] at hpage
    injection hpage with hpage2
    subst hpage2
    obtain ⟨q, hq, hcell⟩ := List.mem_filterMap.mp hpl
    obtain ⟨hidx, hx, hy, _⟩ := pdf_cell_eq_some hcell
    have hq4 : q < 4 := List.mem_range.mp hq
    have h1 : (p * 4 + q) / 4 = p := by omega
    have h2 : (p * 4 + q) % 4 = q := by omega
    rw [hidx, h1, h2]
    exact ⟨rfl, hx, hy⟩

/-- **C10 witness**: the no-repacking contract at the concrete 5-entry input
with the third image missing. -/
theorem C10_witness :
    (pdf_layout [⟨"a"⟩, ⟨"b"⟩, ⟨""⟩, ⟨"d"⟩, ⟨"e"⟩]).length
      = (([⟨"a"⟩, ⟨"b"⟩, ⟨""⟩, ⟨"d"⟩, ⟨"e"⟩] : List PdfEntry).length + 3) / 4 ∧
    ∀ page ∈ pdf_layout [⟨"a"⟩, ⟨"b"⟩, ⟨""⟩, ⟨"d"⟩, ⟨"e"⟩], ∀ pl ∈ page, pl.entry_idx ≠ 2 :=
  ⟨(C10_no_repacking [⟨"a"⟩, ⟨"b"⟩, ⟨""⟩, ⟨"d"⟩, ⟨"e"⟩]).1,
   (C10_no_repacking [⟨"a"⟩, ⟨"b"⟩, ⟨""⟩, ⟨"d"⟩, ⟨"e"⟩]).2.2.1 2 ⟨""⟩ (by decide) (by decide)⟩

end QRRepo
